import Mathlib

/-!
Verification development for the xpsdeeplearning data-augmentation core.

The definitions below are a shallow embedding of the Python sources
`src/augmentation/creator.py` and
`src/simulation/base_model/converters/text_parser.py`.

Real (floating point) arithmetic is modelled with exact rationals, and the
pseudo-random sources (`np.random.uniform`, `np.random.randint`,
`np.random.choice`) are modelled as oracle streams whose values satisfy the
numpy range contracts.  The unbounded `while` loop in
`Creator.create_matrix` is modelled with an explicit fuel argument: a run of
the Python loop that terminates after `a` resampling attempts corresponds to
a `some` result for every fuel larger than `a`, and the Python loop running
forever corresponds to `none` at every fuel.
-/

namespace XPS

/-- The floor check `all(p >= 0.1 for p in linear_params)` in
`Creator.create_matrix`. -/
def floorOK (w : List ℚ) : Bool :=
  w.all (fun p => decide ((1 : ℚ) / 10 ≤ p))

/-- The normalization `linear_params = [ k/s for k in r ]` with `s = sum(r)`. -/
def normalize (r : List ℚ) : List ℚ :=
  r.map (fun t => t / r.sum)

/-- One draw `r = [np.random.uniform(0.1,1.0) for j in range(k)]`: attempt `a` of a
row consumes the `k` fresh oracle values at positions `a*k, ..., a*k+k-1`. -/
def drawRow (u : ℕ → ℚ) (k a : ℕ) : List ℚ :=
  (List.range k).map (fun j => u (a * k + j))

/-- The rejection-sampling `while` loop of `Creator.create_matrix`
(combination mode): draw, normalize, and keep resampling while some
normalized weight is below `0.1`.  `fuel` bounds the number of attempts the
model is willing to simulate; the Python loop itself has no such bound. -/
def sampleRowFuel (u : ℕ → ℚ) (k : ℕ) : ℕ → ℕ → Option (List ℚ)
  | 0, _ => none
  | fuel + 1, a =>
    let lp := normalize (drawRow u k a)
    if floorOK lp then some lp else sampleRowFuel u k fuel (a + 1)

theorem length_drawRow (u : ℕ → ℚ) (k a : ℕ) : (drawRow u k a).length = k := by
  simp [drawRow]

theorem mem_drawRow_lb {u : ℕ → ℚ} (hu : ∀ i, (1 : ℚ) / 10 ≤ u i)
    {k a : ℕ} {p : ℚ} (hp : p ∈ drawRow u k a) : (1 : ℚ) / 10 ≤ p := by
  simp only [drawRow, List.mem_map, List.mem_range] at hp
  obtain ⟨j, -, rfl⟩ := hp
  exact hu _

theorem sum_map_div (r : List ℚ) (s : ℚ) :
    (r.map (fun t => t / s)).sum = r.sum / s := by
  induction r with
  | nil => simp
  | cons a t ih => simp [ih, add_div]

theorem drawRow_sum_pos {u : ℕ → ℚ} (hu : ∀ i, (1 : ℚ) / 10 ≤ u i)
    {k : ℕ} (hk : 0 < k) (a : ℕ) : 0 < (drawRow u k a).sum := by
  have hlen : (drawRow u k a).length = k := length_drawRow u k a
  have hne : drawRow u k a ≠ [] := by
    intro h
    rw [h] at hlen
    simp at hlen
    omega
  obtain ⟨p, t, hpt⟩ := List.exists_cons_of_ne_nil hne
  have hsum : (drawRow u k a).sum = p + t.sum := by rw [hpt]; simp
  have hp : (1 : ℚ) / 10 ≤ p := mem_drawRow_lb hu (by rw [hpt]; simp)
  have ht : 0 ≤ t.sum := by
    apply List.sum_nonneg
    intro q hq
    have : (1 : ℚ) / 10 ≤ q := mem_drawRow_lb hu (by rw [hpt]; simp [hq])
    linarith
  rw [hsum]
  linarith

theorem normalize_sum_one {r : List ℚ} (hs : r.sum ≠ 0) :
    (normalize r).sum = 1 := by
  simp [normalize, sum_map_div, div_self hs]

theorem normalize_length (r : List ℚ) : (normalize r).length = r.length := by
  simp [normalize]

/-- Structure of a successful run of the rejection loop: the returned row is
the normalization of the first attempt that passes the floor check, and every
earlier attempt failed it. -/
theorem sampleRowFuel_some {u : ℕ → ℚ} {k fuel a : ℕ} {w : List ℚ}
    (h : sampleRowFuel u k fuel a = some w) :
    ∃ b, a ≤ b ∧ w = normalize (drawRow u k b) ∧
      floorOK (normalize (drawRow u k b)) = true ∧
      ∀ c, a ≤ c → c < b → floorOK (normalize (drawRow u k c)) = false := by
  induction fuel generalizing a with
  | zero => simp [sampleRowFuel] at h
  | succ n ih =>
    rw [sampleRowFuel] at h
    by_cases hfl : floorOK (normalize (drawRow u k a)) = true
    · refine ⟨a, le_rfl, ?_, hfl, ?_⟩
      · simp only [hfl, if_true] at h
        exact (Option.some_injective _ h).symm
      · intro c hc hc'
        omega
    · simp only [hfl, if_false] at h
      obtain ⟨b, hab, hw, hok, hfail⟩ := ih h
      refine ⟨b, by omega, hw, hok, ?_⟩
      intro c hac hcb
      rcases Nat.eq_or_lt_of_le hac with hca | hca
      · rw [hca] at hfl
        simpa using hfl
      · exact hfail c hca hcb

/-- Pointwise indexed assignment on a row, used to embed the numpy slice and
scalar writes of `Creator.create_matrix` (`matrix[i, 0:k] = ...`,
`matrix[i, :q] = 0`, `matrix[i, q+1:] = 0`, `matrix[i, p] = v`).  The second
argument is the index of the head of the remaining list. -/
def assignIdx (f : ℕ → ℚ → ℚ) : List ℚ → ℕ → List ℚ
  | [], _ => []
  | a :: t, j => f j a :: assignIdx f t (j + 1)

/-- Scalar write `row[p] = v`. -/
def setAt (l : List ℚ) (p : ℕ) (v : ℚ) : List ℚ :=
  assignIdx (fun j x => if j = p then v else x) l 0

theorem assignIdx_length (f : ℕ → ℚ → ℚ) (l : List ℚ) (j0 : ℕ) :
    (assignIdx f l j0).length = l.length := by
  induction l generalizing j0 with
  | nil => simp [assignIdx]
  | cons a t ih => simp [assignIdx, ih]

theorem assignIdx_getElem? (f : ℕ → ℚ → ℚ) (l : List ℚ) (j0 i : ℕ) :
    (assignIdx f l j0)[i]? = Option.map (f (j0 + i)) l[i]? := by
  induction l generalizing j0 i with
  | nil => simp [assignIdx]
  | cons a t ih =>
    cases i with
    | zero => simp [assignIdx]
    | succ m =>
      rw [show j0 + (m + 1) = (j0 + 1) + m by omega]
      simpa [assignIdx] using ih (j0 + 1) m

theorem setAt_length (l : List ℚ) (p : ℕ) (v : ℚ) :
    (setAt l p v).length = l.length := assignIdx_length _ l 0

theorem setAt_getElem? (l : List ℚ) (p : ℕ) (v : ℚ) (i : ℕ) :
    (setAt l p v)[i]? = Option.map (fun x => if i = p then v else x) l[i]? := by
  simpa [setAt] using assignIdx_getElem? (fun j x => if j = p then v else x) l 0 i

/-- The pseudo-random sources consumed by `Creator.create_matrix`, one
independent stream per row: `uniform i` enumerates the
`np.random.uniform(0.1, 1.0)` draws of row `i`, `choice i` is the raw value
behind `np.random.choice(list(range(k)))`, and `rintF/rintS/rintN i` are the
raw values behind the three `np.random.randint` calls of row `i`. -/
structure RandOracle where
  uniform : ℕ → ℕ → ℚ
  choice : ℕ → ℕ
  rintF : ℕ → ℕ
  rintS : ℕ → ℕ
  rintN : ℕ → ℕ

/-- The call `np.random.randint(low, high)`: a uniform integer in `[low, high)`,
modelled by reducing a raw oracle value modulo the interval width. -/
def randint (low high : ℤ) (v : ℕ) : ℤ :=
  low + (v : ℤ) % (high - low)

theorem randint_mem {low high : ℤ} (h : low < high) (v : ℕ) :
    low ≤ randint low high v ∧ randint low high v < high := by
  have hpos : 0 < high - low := by omega
  have h1 : 0 ≤ (v : ℤ) % (high - low) :=
    Int.emod_nonneg _ (by omega)
  have h2 : (v : ℤ) % (high - low) < high - low :=
    Int.emod_lt_of_pos _ hpos
  unfold randint
  omega

theorem randint_surjective {low high t : ℤ} (h1 : low ≤ t) (h2 : t < high) :
    ∃ v : ℕ, randint low high v = t := by
  refine ⟨(t - low).toNat, ?_⟩
  have ht : ((t - low).toNat : ℤ) = t - low := Int.toNat_of_nonneg (by omega)
  unfold randint
  rw [ht, Int.emod_eq_of_lt (by omega) (by omega)]
  omega

/-- The draw stored by `self.augmentation_matrix[i,-3] = np.random.randint(145,722)`. -/
def fwhmOf (O : RandOracle) (i : ℕ) : ℚ := ((randint 145 722 (O.rintF i) : ℤ) : ℚ)

/-- The draw stored by `self.augmentation_matrix[i,-2] = np.random.randint(-8,9)`. -/
def shiftOf (O : RandOracle) (i : ℕ) : ℚ := ((randint (-8) 9 (O.rintS i) : ℤ) : ℚ)

/-- The draw stored by `self.augmentation_matrix[i,-1] = np.random.randint(15,200)`. -/
def snrOf (O : RandOracle) (i : ℕ) : ℚ := ((randint 15 200 (O.rintN i) : ℤ) : ℚ)

/-- A fresh all-zero row of `np.zeros((n, p))`. -/
def npZeros (p : ℕ) : List ℚ := List.replicate p 0

/-- The writes to the last three columns of a row
(`matrix[i,-3]`, `matrix[i,-2]`, `matrix[i,-1]`). -/
def setDistortions (row : List ℚ) (f s n : ℚ) : List ℚ :=
  setAt (setAt (setAt row (row.length - 3) f) (row.length - 2) s) (row.length - 1) n

/-- One combination-mode row of `Creator.create_matrix`: the rejection-sampled
linear parameters are written into columns `0..k-1` of a zero row
(`matrix[i, 0:k] = linear_params`), then the three distortion columns are
filled. -/
def combinationRow (O : RandOracle) (k fuel i : ℕ) : Option (List ℚ) :=
  (sampleRowFuel (O.uniform i) k fuel 0).map (fun lp =>
    setDistortions
      (assignIdx (fun j v => if j < lp.length then lp.getD j 0 else v) (npZeros (k + 3)) 0)
      (fwhmOf O i) (shiftOf O i) (snrOf O i))

/-- One single-mode row of `Creator.create_matrix`:
`q = np.random.choice(list(range(k)))`, then `matrix[i,q] = 1.0`,
`matrix[i,:q] = 0`, `matrix[i,q+1:] = 0`, then the distortion columns. -/
def singleRow (O : RandOracle) (k i : ℕ) : List ℚ :=
  let q := O.choice i % k
  let r1 := setAt (npZeros (k + 3)) q 1
  let r2 := assignIdx (fun j v => if j < q then 0 else v) r1 0
  let r3 := assignIdx (fun j v => if q + 1 ≤ j then 0 else v) r2 0
  setDistortions r3 (fwhmOf O i) (shiftOf O i) (snrOf O i)

/-- Collects a list of optional rows, failing when any row failed. -/
def collectSome {β : Type} : List (Option β) → Option (List β)
  | [] => some []
  | none :: _ => none
  | some b :: t => (collectSome t).map (fun bs => b :: bs)

/-- The matrix builder `Creator.create_matrix`: one row per simulation; combination mode fails
(`none`) when some row exhausts the modelling fuel of its rejection loop. -/
def createMatrix (O : RandOracle) (n k fuel : ℕ) (single : Bool) :
    Option (List (List ℚ)) :=
  if single then some ((List.range n).map (fun i => singleRow O k i))
  else collectSome ((List.range n).map (fun i => combinationRow O k fuel i))

/-- The distortion-suppression overwrites at the top of `Creator.run`:
`if broaden == False: matrix[:,-3] = 0`, and likewise for `x_shift`
(column `-2`) and `noise` (column `-1`). -/
def runMatrix (M : List (List ℚ)) (broaden xShift noise : Bool) :
    List (List ℚ) :=
  let M1 := if broaden then M else M.map (fun r => setAt r (r.length - 3) 0)
  let M2 := if xShift then M1 else M1.map (fun r => setAt r (r.length - 2) 0)
  if noise then M2 else M2.map (fun r => setAt r (r.length - 1) 0)

/-- The collection loop of `Creator.run`: one simulation per row, appended in
order.  The `Simulation` pipeline (`combine_linear`, `change_spectrum`,
`dict_from_one_simulation`) lives outside `src/`; it is abstracted as the
function `simulate` from a row's scaling parameters
(`augmentation_matrix[i][0:k]`) and distortion entries (`[-3]`, `[-2]`,
`[-1]`) to the stored record. -/
def runDicts {α : Type} (simulate : List ℚ → ℚ → ℚ → ℚ → α)
    (M : List (List ℚ)) (n k : ℕ) : List α :=
  (List.range n).map (fun i =>
    let row := M.getD i []
    simulate (row.take k) (row.getD (row.length - 3) 0)
      (row.getD (row.length - 2) 0) (row.getD (row.length - 1) 0))

/-- A concrete oracle used to evaluate the model on explicit inputs. -/
def testOracle : RandOracle :=
  ⟨fun _ _ => (1 : ℚ) / 2, fun _ => 0, fun _ => 0, fun _ => 0, fun _ => 0⟩

theorem drawRow_const_half (a : ℕ) :
    drawRow (fun _ => (1 : ℚ) / 2) 2 a = [1/2, 1/2] := by
  have hr : List.range 2 = [0, 1] := rfl
  simp [drawRow, hr]

theorem sampleRow_const_half (a : ℕ) :
    sampleRowFuel (fun _ => (1 : ℚ) / 2) 2 1 a = some [1/2, 1/2] := by
  have hn : normalize (drawRow (fun _ => (1 : ℚ)/2) 2 a) = [1/2, 1/2] := by
    rw [drawRow_const_half]
    norm_num [normalize]
  have hf : floorOK [(1 : ℚ)/2, 1/2] = true := by
    simp [floorOK]
    norm_num
  rw [sampleRowFuel]
  simp only [hn, hf, if_true]

theorem floorOK_iff (w : List ℚ) :
    floorOK w = true ↔ ∀ p ∈ w, (1 : ℚ) / 10 ≤ p := by
  simp [floorOK, List.all_eq_true]

/-- C1: every row stored by the combination-mode rejection sampler consists of
`num_references` weights, each non-negative and at least 0.1, summing exactly
to 1 (and hence within 1e-6 of 1); the stored row is the normalization of the
first attempt that passes the 0.1 floor, every earlier attempt having been
rejected whole — a normalization with a weight below 0.1 is never stored. -/
theorem combination_weights_invariant (u : ℕ → ℚ) (k fuel : ℕ) (w : List ℚ)
    (hu : ∀ i, (1 : ℚ) / 10 ≤ u i) (hk : 0 < k)
    (hw : sampleRowFuel u k fuel 0 = some w) :
    w.length = k ∧ w.sum = 1 ∧ (∀ p ∈ w, 0 ≤ p ∧ (1 : ℚ) / 10 ≤ p) ∧
      ∃ a, w = normalize (drawRow u k a) ∧
        floorOK (normalize (drawRow u k a)) = true ∧
        ∀ b < a, floorOK (normalize (drawRow u k b)) = false := by
  obtain ⟨b, -, hwb, hok, hfail⟩ := sampleRowFuel_some hw
  have hs : 0 < (drawRow u k b).sum := drawRow_sum_pos hu hk b
  have hfloor : ∀ p ∈ normalize (drawRow u k b), (1 : ℚ) / 10 ≤ p :=
    (floorOK_iff _).mp hok
  subst hwb
  refine ⟨by rw [normalize_length, length_drawRow],
    normalize_sum_one (ne_of_gt hs), ?_, b, rfl, hok,
    fun c hc => hfail c (Nat.zero_le c) hc⟩
  intro p hp
  have h1 := hfloor p hp
  exact ⟨by linarith, h1⟩

theorem combination_weights_invariant_witness :
    ([(1 : ℚ)/2, 1/2].length = 2 ∧ [(1 : ℚ)/2, 1/2].sum = 1 ∧
      (∀ p ∈ [(1 : ℚ)/2, 1/2], 0 ≤ p ∧ (1 : ℚ) / 10 ≤ p) ∧
      ∃ a, [(1 : ℚ)/2, 1/2] = normalize (drawRow (fun _ => (1 : ℚ)/2) 2 a) ∧
        floorOK (normalize (drawRow (fun _ => (1 : ℚ)/2) 2 a)) = true ∧
        ∀ b < a, floorOK (normalize (drawRow (fun _ => (1 : ℚ)/2) 2 b)) = false) :=
  combination_weights_invariant (fun _ => (1 : ℚ)/2) 2 1 [(1 : ℚ)/2, 1/2]
    (fun _ => by norm_num) (by norm_num) (sampleRow_const_half 0)

/-- The draw stream alternating `0.1, 1.0`: its normalization is always
`[1/11, 10/11]`, which fails the 0.1 floor. -/
def badU : ℕ → ℚ := fun i => if i % 2 = 0 then 1/10 else 1

theorem badU_draw (a : ℕ) : drawRow badU 2 a = [1/10, 1] := by
  have h0 : a * 2 % 2 = 0 := by omega
  have h1 : (a * 2 + 1) % 2 = 1 := by omega
  have hr : List.range 2 = [0, 1] := rfl
  simp [drawRow, hr, badU, h0, h1]

theorem badU_fail (a : ℕ) : floorOK (normalize (drawRow badU 2 a)) = false := by
  rw [badU_draw]
  have hn : normalize [(1 : ℚ)/10, 1] = [1/11, 10/11] := by
    norm_num [normalize]
  rw [hn]
  simp [floorOK]
  norm_num

theorem badU_none (fuel : ℕ) : ∀ a, sampleRowFuel badU 2 fuel a = none := by
  induction fuel with
  | zero => intro a; rfl
  | succ n ih =>
    intro a
    rw [sampleRowFuel]
    simp [badU_fail a, ih (a + 1)]

/-- C3 counterexample: the claimed retry cap does not exist.  On the draw
stream alternating 0.1 and 1.0 — whose normalization always contains the
weight 1/11 < 0.1 — the rejection loop of `Creator.create_matrix` produces no
row at any attempt bound whatsoever (and the source signals no error of any
kind): the loop runs without bound instead of stopping after a fixed number
of attempts. -/
theorem rejection_cap_counterexample :
    ¬ ∃ fuel a, (sampleRowFuel badU 2 fuel a).isSome = true := by
  rintro ⟨fuel, a, h⟩
  rw [badU_none fuel a] at h
  simp at h

/-- C3 (amended): the rejection loop that enforces the 0.1 floor is not
bounded by any retry cap and signals no error: it stops only when an attempt
satisfies the floor (every returned row passes `floorOK`), and on a draw
stream none of whose attempts satisfies the floor it never stops, whatever
attempt budget is allowed. -/
theorem rejection_loop_unbounded (fuel a : ℕ) :
    sampleRowFuel badU 2 fuel a = none ∧
    (∀ (u : ℕ → ℚ) (k f b : ℕ) (w : List ℚ),
      sampleRowFuel u k f b = some w → floorOK w = true) := by
  refine ⟨badU_none fuel a, ?_⟩
  intro u k f b w hw
  obtain ⟨c, -, rfl, hok, -⟩ := sampleRowFuel_some hw
  exact hok

theorem rejection_loop_unbounded_witness :
    sampleRowFuel badU 2 5 0 = none ∧ floorOK [(1 : ℚ)/2, 1/2] = true :=
  ⟨(rejection_loop_unbounded 5 0).1,
   (rejection_loop_unbounded 5 0).2 (fun _ => (1 : ℚ)/2) 2 1 0 [(1 : ℚ)/2, 1/2]
     (sampleRow_const_half 0)⟩

theorem collectSome_map_some {α β : Type} (f : α → Option β) (g : α → β)
    (l : List α) (h : ∀ a ∈ l, f a = some (g a)) :
    collectSome (l.map f) = some (l.map g) := by
  induction l with
  | nil => rfl
  | cons a t ih =>
    rw [List.map_cons, List.map_cons, h a (by simp), collectSome,
      ih (fun b hb => h b (by simp [hb]))]
    rfl

theorem sampleRow_one_ref (u : ℕ → ℚ) (a : ℕ) (hu : (1 : ℚ) / 10 ≤ u a) :
    sampleRowFuel u 1 1 a = some [1] := by
  have h0 : u a ≠ 0 := by intro h; rw [h] at hu; norm_num at hu
  have hr : List.range 1 = [0] := rfl
  have hd : drawRow u 1 a = [u a] := by
    simp [drawRow, hr]
  have hn : normalize [u a] = [1] := by simp [normalize, div_self h0]
  rw [sampleRowFuel]
  simp [hd, hn, floorOK]
  norm_num

theorem npZeros_getElem? (p j : ℕ) :
    (npZeros p)[j]? = if j < p then some 0 else none := by
  simp [npZeros, List.getElem?_replicate]

theorem setDistortions_getElem? (row : List ℚ) (k : ℕ) (hks : row.length = k + 3)
    (f s n : ℚ) (j : ℕ) :
    (setDistortions row f s n)[j]? =
      if j = k then some f else if j = k + 1 then some s
      else if j = k + 2 then some n else row[j]? := by
  have h3 : row.length - 3 = k := by omega
  have h2 : row.length - 2 = k + 1 := by omega
  have h1 : row.length - 1 = k + 2 := by omega
  rw [setDistortions, h3, h2, h1, setAt_getElem?, setAt_getElem?, setAt_getElem?]
  cases hrj : row[j]? with
  | none =>
    have hj : row.length ≤ j := List.getElem?_eq_none_iff.mp hrj
    have e1 : j ≠ k := by omega
    have e2 : j ≠ k + 1 := by omega
    have e3 : j ≠ k + 2 := by omega
    simp [e1, e2, e3]
  | some x =>
    simp only [Option.map_some']
    split_ifs <;> simp_all

theorem setDistortions_length (row : List ℚ) (f s n : ℚ) :
    (setDistortions row f s n).length = row.length := by
  simp [setDistortions, setAt_length]

/-- Entry-wise description of an assembled combination-mode row. -/
theorem combRow_build_getElem? (lp : List ℚ) (k : ℕ) (hlp : lp.length = k)
    (F S N : ℚ) (j : ℕ) :
    (setDistortions
      (assignIdx (fun j v => if j < lp.length then lp.getD j 0 else v)
        (npZeros (k + 3)) 0) F S N)[j]? =
      if j = k then some F else if j = k + 1 then some S
      else if j = k + 2 then some N
      else if j < k then some (lp.getD j 0) else none := by
  have hlen : (assignIdx (fun j v => if j < lp.length then lp.getD j 0 else v)
      (npZeros (k + 3)) 0).length = k + 3 := by
    simp [assignIdx_length, npZeros]
  rw [setDistortions_getElem? _ k hlen, assignIdx_getElem?, npZeros_getElem?]
  split_ifs <;> simp_all <;> omega

theorem combRow_build_length (lp : List ℚ) (k : ℕ) (F S N : ℚ) :
    (setDistortions
      (assignIdx (fun j v => if j < lp.length then lp.getD j 0 else v)
        (npZeros (k + 3)) 0) F S N).length = k + 3 := by
  simp [setDistortions_length, assignIdx_length, npZeros]

/-- Entry-wise description of a single-mode row. -/
theorem singleRow_getElem? (O : RandOracle) (k i : ℕ) (hk : 0 < k) (j : ℕ) :
    (singleRow O k i)[j]? =
      if j = k then some (fwhmOf O i) else if j = k + 1 then some (shiftOf O i)
      else if j = k + 2 then some (snrOf O i)
      else if j < k then some (if j = O.choice i % k then 1 else 0)
      else none := by
  have hq : O.choice i % k < k := Nat.mod_lt _ hk
  rw [singleRow]
  have hlen : ((assignIdx (fun j v => if O.choice i % k + 1 ≤ j then 0 else v)
      (assignIdx (fun j v => if j < O.choice i % k then 0 else v)
        (setAt (npZeros (k + 3)) (O.choice i % k) 1) 0) 0)).length = k + 3 := by
    simp [assignIdx_length, setAt_length, npZeros]
  rw [setDistortions_getElem? _ k hlen, assignIdx_getElem?, assignIdx_getElem?,
    setAt_getElem?, npZeros_getElem?]
  split_ifs <;> simp_all <;> omega

theorem singleRow_length (O : RandOracle) (k i : ℕ) :
    (singleRow O k i).length = k + 3 := by
  rw [singleRow]
  simp [setDistortions_length, assignIdx_length, setAt_length, npZeros]

/-- C5: every row generated in single mode is one-hot over the weight
columns: there is a reference index `q < num_references` whose weight column
equals 1.0 while every other weight column equals 0.0. -/
theorem single_mode_one_hot (O : RandOracle) (n k fuel : ℕ) (hk : 0 < k)
    (M : List (List ℚ)) (hM : createMatrix O n k fuel true = some M) :
    M.length = n ∧ ∀ row ∈ M, ∃ q < k,
      ∀ j < k, row.getD j 0 = if j = q then 1 else 0 := by
  have hM' : M = (List.range n).map (fun i => singleRow O k i) := by
    have := hM
    rw [createMatrix] at this
    simpa using this.symm
  constructor
  · simp [hM']
  · intro row hrow
    rw [hM'] at hrow
    simp only [List.mem_map, List.mem_range] at hrow
    obtain ⟨i, -, rfl⟩ := hrow
    refine ⟨O.choice i % k, Nat.mod_lt _ hk, ?_⟩
    intro j hj
    have h := singleRow_getElem? O k i hk j
    have e1 : j ≠ k := by omega
    have e2 : j ≠ k + 1 := by omega
    have e3 : j ≠ k + 2 := by omega
    rw [List.getD_eq_getElem?_getD, h]
    simp [e1, e2, e3, hj]

theorem single_mode_one_hot_witness :
    ((List.range 1).map (fun i => singleRow testOracle 2 i)).length = 1 ∧
    ∀ row ∈ (List.range 1).map (fun i => singleRow testOracle 2 i), ∃ q < 2,
      ∀ j < 2, row.getD j 0 = if j = q then 1 else 0 :=
  single_mode_one_hot testOracle 1 2 0 (by norm_num) _ (by rw [createMatrix]; simp)

/-- C6: with `num_references = 1` in combination mode, every attempt
normalizes its single draw `u` to `u/u = 1`, so the floor is satisfied at
once — a single unit of fuel (one attempt, no resampling) suffices — and
every generated row stores the sole mixing weight exactly 1.0. -/
theorem single_reference_combination (O : RandOracle) (n : ℕ)
    (hO : ∀ i j, (1 : ℚ) / 10 ≤ O.uniform i j) :
    (∀ i a, sampleRowFuel (O.uniform i) 1 1 a = some [1]) ∧
    ∃ M, createMatrix O n 1 1 false = some M ∧ M.length = n ∧
      ∀ row ∈ M, row.getD 0 0 = 1 := by
  have hrow : ∀ i a, sampleRowFuel (O.uniform i) 1 1 a = some [1] :=
    fun i a => sampleRow_one_ref (O.uniform i) a (hO i a)
  refine ⟨hrow, ?_⟩
  have hcomb : ∀ i ∈ List.range n, combinationRow O 1 1 i =
      some (setDistortions
        (assignIdx (fun j v => if j < ([1] : List ℚ).length then ([1] : List ℚ).getD j 0 else v)
          (npZeros (1 + 3)) 0)
        (fwhmOf O i) (shiftOf O i) (snrOf O i)) := by
    intro i _
    rw [combinationRow, hrow i 0]
    rfl
  refine ⟨(List.range n).map (fun i =>
      setDistortions
        (assignIdx (fun j v => if j < ([1] : List ℚ).length then ([1] : List ℚ).getD j 0 else v)
          (npZeros (1 + 3)) 0)
        (fwhmOf O i) (shiftOf O i) (snrOf O i)), ?_, ?_, ?_⟩
  · rw [createMatrix]
    simpa using collectSome_map_some _ _ (List.range n) hcomb
  · simp
  · intro row hrow'
    simp only [List.mem_map, List.mem_range] at hrow'
    obtain ⟨i, -, rfl⟩ := hrow'
    have h := combRow_build_getElem? ([1] : List ℚ) 1 rfl
      (fwhmOf O i) (shiftOf O i) (snrOf O i) 0
    rw [List.getD_eq_getElem?_getD, h]
    norm_num

theorem single_reference_combination_witness :
    (∀ i a, sampleRowFuel (testOracle.uniform i) 1 1 a = some [1]) ∧
    ∃ M, createMatrix testOracle 2 1 1 false = some M ∧ M.length = 2 ∧
      ∀ row ∈ M, row.getD 0 0 = 1 :=
  single_reference_combination testOracle 2 (fun _ _ => by norm_num [testOracle])

/-- C7: in every generated row (either mode), the three distortion columns
hold integers with the broadening width in `[145, 722)`, the x-shift in
`[-8, 8]` and the signal-to-noise target in `[15, 200)`; every integer in
each range is attainable from some oracle value (uniformity over the range);
and the stored columns `-3`, `-2`, `-1` are exactly these draws. -/
theorem distortion_column_ranges (O : RandOracle) (k fuel i : ℕ) (hk : 0 < k) :
    ((145 : ℚ) ≤ fwhmOf O i ∧ fwhmOf O i < 722) ∧
    ((-8 : ℚ) ≤ shiftOf O i ∧ shiftOf O i ≤ 8) ∧
    ((15 : ℚ) ≤ snrOf O i ∧ snrOf O i < 200) ∧
    (∀ t : ℤ, 145 ≤ t → t < 722 → ∃ v, randint 145 722 v = t) ∧
    (∀ t : ℤ, -8 ≤ t → t ≤ 8 → ∃ v, randint (-8) 9 v = t) ∧
    (∀ t : ℤ, 15 ≤ t → t < 200 → ∃ v, randint 15 200 v = t) ∧
    (∀ row, combinationRow O k fuel i = some row →
      row.getD k 0 = fwhmOf O i ∧ row.getD (k + 1) 0 = shiftOf O i ∧
        row.getD (k + 2) 0 = snrOf O i) ∧
    ((singleRow O k i).getD k 0 = fwhmOf O i ∧
      (singleRow O k i).getD (k + 1) 0 = shiftOf O i ∧
      (singleRow O k i).getD (k + 2) 0 = snrOf O i) := by
  have hf := @randint_mem 145 722 (by norm_num) (O.rintF i)
  have hs := @randint_mem (-8) 9 (by norm_num) (O.rintS i)
  have hn := @randint_mem 15 200 (by norm_num) (O.rintN i)
  refine ⟨⟨?_, ?_⟩, ⟨?_, ?_⟩, ⟨?_, ?_⟩, ?_, ?_, ?_, ?_, ?_, ?_, ?_⟩
  · unfold fwhmOf; exact_mod_cast hf.1
  · unfold fwhmOf; exact_mod_cast hf.2
  · unfold shiftOf; exact_mod_cast hs.1
  · have hint : randint (-8) 9 (O.rintS i) ≤ 8 := by
      have := hs.2
      omega
    unfold shiftOf; exact_mod_cast hint
  · unfold snrOf; exact_mod_cast hn.1
  · unfold snrOf; exact_mod_cast hn.2
  · intro t h1 h2
    exact randint_surjective h1 h2
  · intro t h1 h2
    exact randint_surjective h1 (by omega)
  · intro t h1 h2
    exact randint_surjective h1 h2
  · intro row hrow
    rw [combinationRow] at hrow
    cases hsf : sampleRowFuel (O.uniform i) k fuel 0 with
    | none => rw [hsf] at hrow; simp at hrow
    | some lp =>
      rw [hsf] at hrow
      simp only [Option.map_some', Option.some_inj] at hrow
      obtain ⟨b, -, hlp, -, -⟩ := sampleRowFuel_some hsf
      have hlpk : lp.length = k := by
        rw [hlp, normalize_length, length_drawRow]
      subst hrow
      refine ⟨?_, ?_, ?_⟩ <;>
        rw [List.getD_eq_getElem?_getD, combRow_build_getElem? lp k hlpk] <;>
        simp
  · rw [List.getD_eq_getElem?_getD, singleRow_getElem? O k i hk k]
    simp
  · rw [List.getD_eq_getElem?_getD, singleRow_getElem? O k i hk (k + 1)]
    simp [(by omega : k + 1 ≠ k)]
  · rw [List.getD_eq_getElem?_getD, singleRow_getElem? O k i hk (k + 2)]
    simp [(by omega : k + 2 ≠ k), (by omega : k + 2 ≠ k + 1)]

theorem distortion_column_ranges_witness :
    ((145 : ℚ) ≤ fwhmOf testOracle 0 ∧ fwhmOf testOracle 0 < 722) ∧
    (∃ v, randint 145 722 v = 300) ∧ (∃ v, randint (-8) 9 v = -8) ∧
    (∃ v, randint 15 200 v = 199) ∧
    (singleRow testOracle 2 0).getD 2 0 = fwhmOf testOracle 0 :=
  ⟨(distortion_column_ranges testOracle 2 1 0 (by norm_num)).1,
   (distortion_column_ranges testOracle 2 1 0 (by norm_num)).2.2.2.1 300
     (by norm_num) (by norm_num),
   (distortion_column_ranges testOracle 2 1 0 (by norm_num)).2.2.2.2.1 (-8)
     (by norm_num) (by norm_num),
   (distortion_column_ranges testOracle 2 1 0 (by norm_num)).2.2.2.2.2.1 199
     (by norm_num) (by norm_num),
   (distortion_column_ranges testOracle 2 1 0 (by norm_num)).2.2.2.2.2.2.2.1⟩

theorem take_eq_of_getElem? (k : ℕ) (l₁ l₂ : List ℚ)
    (h : ∀ j < k, l₁[j]? = l₂[j]?) : l₁.take k = l₂.take k := by
  induction k generalizing l₁ l₂ with
  | zero => rfl
  | succ m ih =>
    cases l₁ with
    | nil =>
      cases l₂ with
      | nil => rfl
      | cons b t => have := h 0 (by omega); simp at this
    | cons a s =>
      cases l₂ with
      | nil => have := h 0 (by omega); simp at this
      | cons b t =>
        have h0 := h 0 (by omega)
        simp only [List.getElem?_cons_zero, Option.some_inj] at h0
        rw [List.take_succ_cons, List.take_succ_cons, h0,
          ih s t (fun j hj => by simpa using h (j + 1) (by omega))]

/-- The per-row effect of the conditional overwrites at the top of
`Creator.run` (proof-side regrouping of `runMatrix` into one map). -/
def runRowEffect (b x n : Bool) (r : List ℚ) : List ℚ :=
  let r1 := if b then r else setAt r (r.length - 3) 0
  let r2 := if x then r1 else setAt r1 (r1.length - 2) 0
  if n then r2 else setAt r2 (r2.length - 1) 0

/-- The conditional overwrites of `Creator.run`, written as one map over rows. -/
theorem runMatrix_eq_map (M : List (List ℚ)) (b x n : Bool) :
    runMatrix M b x n = M.map (runRowEffect b x n) := by
  have hid : runRowEffect true true true = fun r => r :=
    funext (fun r => by simp [runRowEffect])
  cases b <;> cases x <;> cases n <;>
    simp [runMatrix, runRowEffect, List.map_map, Function.comp, hid,
      List.map_id']

theorem runRowEffect_getElem?_lt (r : List ℚ) (k : ℕ) (hr : r.length = k + 3)
    (b x n : Bool) (j : ℕ) (hj : j < k) :
    (runRowEffect b x n r)[j]? = r[j]? := by
  have e3 : r.length - 3 = k := by omega
  have e2 : r.length - 2 = k + 1 := by omega
  have e1 : r.length - 1 = k + 2 := by omega
  have u1 : j ≠ k := by omega
  have u2 : j ≠ k + 1 := by omega
  have u3 : j ≠ k + 2 := by omega
  cases b <;> cases x <;> cases n <;>
    simp [runRowEffect, setAt_length, e1, e2, e3, setAt_getElem?, u1, u2, u3]

theorem getElem?_isSome_of_lt (r : List ℚ) (j : ℕ) (hj : j < r.length) :
    ∃ v, r[j]? = some v := by
  cases hr' : r[j]? with
  | none => exact absurd (List.getElem?_eq_none_iff.mp hr') (by omega)
  | some v => exact ⟨v, rfl⟩

theorem runRowEffect_broaden_off (r : List ℚ) (k : ℕ) (hr : r.length = k + 3)
    (x n : Bool) :
    (runRowEffect false x n r)[k]? = some (0 : ℚ) := by
  have e3 : r.length - 3 = k := by omega
  have e2 : r.length - 2 = k + 1 := by omega
  have e1 : r.length - 1 = k + 2 := by omega
  obtain ⟨v, hv⟩ := getElem?_isSome_of_lt r k (by omega)
  cases x <;> cases n <;>
    simp [runRowEffect, setAt_length, e1, e2, e3, setAt_getElem?, hv,
      (by omega : k ≠ k + 1), (by omega : k ≠ k + 2)]

theorem runRowEffect_xshift_off (r : List ℚ) (k : ℕ) (hr : r.length = k + 3)
    (b n : Bool) :
    (runRowEffect b false n r)[k + 1]? = some (0 : ℚ) := by
  have e3 : r.length - 3 = k := by omega
  have e2 : r.length - 2 = k + 1 := by omega
  have e1 : r.length - 1 = k + 2 := by omega
  obtain ⟨v, hv⟩ := getElem?_isSome_of_lt r (k + 1) (by omega)
  cases b <;> cases n <;>
    simp [runRowEffect, setAt_length, e1, e2, e3, setAt_getElem?, hv,
      (by omega : k + 1 ≠ k), (by omega : k + 1 ≠ k + 2)]

theorem runRowEffect_noise_off (r : List ℚ) (k : ℕ) (hr : r.length = k + 3)
    (b x : Bool) :
    (runRowEffect b x false r)[k + 2]? = some (0 : ℚ) := by
  have e3 : r.length - 3 = k := by omega
  have e2 : r.length - 2 = k + 1 := by omega
  have e1 : r.length - 1 = k + 2 := by omega
  obtain ⟨v, hv⟩ := getElem?_isSome_of_lt r (k + 2) (by omega)
  cases b <;> cases x <;>
    simp [runRowEffect, setAt_length, e1, e2, e3, setAt_getElem?, hv,
      (by omega : k + 2 ≠ k), (by omega : k + 2 ≠ k + 1)]

/-- C2: distortion toggles in `Creator.run` are post-sampling overwrites of
the already-sampled matrix: running with all distortions enabled leaves the
matrix untouched; for any flag setting the weight columns (the first `k`
entries of every row) are element for element those of the enabled run on the
same sampled matrix (same seed); and a disabled flag forces exactly its
column to 0 in every row. -/
theorem distortion_disable_frame (M : List (List ℚ)) (k : ℕ)
    (hM : ∀ r ∈ M, r.length = k + 3) (b x n : Bool) :
    runMatrix M true true true = M ∧
    (∀ i : ℕ, ((runMatrix M b x n)[i]?.getD []).take k =
      ((M[i]?).getD []).take k) ∧
    (b = false → ∀ r ∈ runMatrix M b x n, r.getD k 0 = 0) ∧
    (x = false → ∀ r ∈ runMatrix M b x n, r.getD (k + 1) 0 = 0) ∧
    (n = false → ∀ r ∈ runMatrix M b x n, r.getD (k + 2) 0 = 0) := by
  refine ⟨by simp [runMatrix], ?_, ?_, ?_, ?_⟩
  · intro i
    rw [runMatrix_eq_map, List.getElem?_map]
    cases hMi : M[i]? with
    | none => rfl
    | some r =>
      have hr : r.length = k + 3 := hM r (List.mem_iff_getElem?.mpr ⟨i, hMi⟩)
      simp only [Option.map_some', Option.getD_some]
      exact take_eq_of_getElem? k _ r
        (fun j hj => runRowEffect_getElem?_lt r k hr b x n j hj)
  · intro hb r hrow
    rw [runMatrix_eq_map] at hrow
    obtain ⟨r0, hr0, rfl⟩ := List.mem_map.mp hrow
    have hr : r0.length = k + 3 := hM r0 hr0
    subst hb
    rw [List.getD_eq_getElem?_getD, runRowEffect_broaden_off r0 k hr x n]
    rfl
  · intro hx r hrow
    rw [runMatrix_eq_map] at hrow
    obtain ⟨r0, hr0, rfl⟩ := List.mem_map.mp hrow
    have hr : r0.length = k + 3 := hM r0 hr0
    subst hx
    rw [List.getD_eq_getElem?_getD, runRowEffect_xshift_off r0 k hr b n]
    rfl
  · intro hn r hrow
    rw [runMatrix_eq_map] at hrow
    obtain ⟨r0, hr0, rfl⟩ := List.mem_map.mp hrow
    have hr : r0.length = k + 3 := hM r0 hr0
    subst hn
    rw [List.getD_eq_getElem?_getD, runRowEffect_noise_off r0 k hr b x]
    rfl

/-- A concrete one-row matrix used to evaluate the model. -/
def testMatrix : List (List ℚ) := [[1, 2, 3, 4, 5]]

theorem distortion_disable_frame_witness :
    runMatrix testMatrix true true true = testMatrix ∧
    (∀ i : ℕ, ((runMatrix testMatrix false true true)[i]?.getD []).take 2 =
      (testMatrix[i]?.getD []).take 2) ∧
    (false = false → ∀ r ∈ runMatrix testMatrix false true true,
      r.getD 2 0 = 0) ∧
    (true = false → ∀ r ∈ runMatrix testMatrix false true true,
      r.getD 3 0 = 0) ∧
    (true = false → ∀ r ∈ runMatrix testMatrix false true true,
      r.getD 4 0 = 0) :=
  distortion_disable_frame testMatrix 2
    (by intro r hr; simp [testMatrix] at hr; simp [hr]) false true true

/-- C8: after `Creator.run`, the collection holds exactly the requested
number of records, in sampling order: for every `i` below the requested
count, record `i` is the simulation of row `i` of the augmentation matrix
(its first `k` entries as scaling parameters and its last three entries as
distortion parameters), for any simulation pipeline whatsoever. -/
theorem run_count_and_order {α : Type} (simulate : List ℚ → ℚ → ℚ → ℚ → α)
    (d : α) (M : List (List ℚ)) (n k : ℕ) :
    (runDicts simulate M n k).length = n ∧
    ∀ i < n, (runDicts simulate M n k).getD i d =
      simulate ((M.getD i []).take k) ((M.getD i []).getD ((M.getD i []).length - 3) 0)
        ((M.getD i []).getD ((M.getD i []).length - 2) 0)
        ((M.getD i []).getD ((M.getD i []).length - 1) 0) := by
  constructor
  · simp [runDicts]
  · intro i hi
    rw [runDicts, List.getD_eq_getElem?_getD, List.getElem?_map,
      List.getElem?_range hi]
    rfl

/-- A concrete record former used to evaluate the model: it just tuples the
arguments handed to the simulation pipeline. -/
def testSim (w : List ℚ) (f s t : ℚ) : List ℚ × ℚ × ℚ × ℚ := (w, f, s, t)

theorem run_count_and_order_witness :
    (runDicts testSim testMatrix 1 2).length = 1 ∧
    (runDicts testSim testMatrix 1 2).getD 0
        (([], 0, 0, 0) : List ℚ × ℚ × ℚ × ℚ) = ([(1 : ℚ), 2], 3, 4, 5) :=
  ⟨(run_count_and_order testSim (([], 0, 0, 0) : List ℚ × ℚ × ℚ × ℚ)
      testMatrix 1 2).1,
   (run_count_and_order testSim (([], 0, 0, 0) : List ℚ × ℚ × ℚ × ℚ)
      testMatrix 1 2).2 0 (by norm_num)⟩

/-- The Python-level failure that `Creator.to_file` can actually raise:
reading the local `df` when `how` matched neither branch leaves it unbound. -/
inductive PyError
  | nameError
deriving DecidableEq

/-- The supported list `filetypes = ['excel', 'json', 'pickle']` in `Creator.to_file`. -/
def filetypes : List String := ["excel", "json", "pickle"]

/-- The writer `Creator._save_to_file`: the file paths written for one dataframe.  The
three branches are independent `if` statements on the filetype; an
unsupported filetype matches none of them and writes nothing. -/
def saveToFile (filename filetype : String) : List String :=
  (if filetype = "excel" then [filename ++ ".xlsx"] else []) ++
  (if filetype = "json" then [filename ++ ".json"] else []) ++
  (if filetype = "pickle" then [filename ++ ".pkl"] else [])

/-- The export entry point `Creator.to_file`, abstracted over the data-folder path (derived
from `__file__` at runtime): returns the printed status message and the list
of file paths written.  The filetype check only selects the printed message —
the code then proceeds to `_save_to_file` regardless; an unknown `how` leaves
`df` unbound and raises `NameError` at its first use. -/
def toFile (datafolder name filetype how : String) (single : Bool) (n : ℕ) :
    Except PyError (String × List String) :=
  let msg := if (filetypes.contains filetype) = false
    then "Saving was not successful. Choose a valid filetype!"
    else "Data was saved."
  if how = "full" ∨ how = "reduced" then
    if single = false then
      Except.ok (msg, saveToFile (datafolder ++ "\\" ++ name) filetype)
    else
      Except.ok (msg, (List.range n).flatMap (fun i =>
        saveToFile (datafolder ++ "\\" ++ (name ++ toString i)) filetype))
  else Except.error PyError.nameError

/-- C9 counterexample: requesting an export with the unsupported filetype
`txt` does not raise any error: `Creator.to_file` returns normally with the
printed warning message and no file written, so no fatal
`ConfigurationError` propagates to the caller. -/
theorem unsupported_filetype_counterexample :
    toFile "C:\\data" "spectra" "txt" "full" false 25 =
      Except.ok ("Saving was not successful. Choose a valid filetype!", []) := by
  rfl

theorem saveToFile_unsupported (filetype : String)
    (hft : filetypes.contains filetype = false) (fp : String) :
    saveToFile fp filetype = [] := by
  simp only [filetypes, List.contains_cons, List.contains_nil,
    Bool.or_eq_false_iff, beq_eq_false_iff_ne, ne_eq] at hft
  obtain ⟨h1, h2, h3, -⟩ := hft
  simp [saveToFile, h1, h2, h3]

/-- C9 (amended): requesting an export with an unsupported export format
performs no partial work — no file of any record is written, in either the
one-artifact or the per-record mode — but nothing is raised: the code prints
the warning message `Saving was not successful. Choose a valid filetype!`
and returns normally to the caller. -/
theorem unsupported_filetype_no_writes (datafolder name filetype how : String)
    (single : Bool) (n : ℕ) (hhow : how = "full" ∨ how = "reduced")
    (hft : filetypes.contains filetype = false) :
    toFile datafolder name filetype how single n =
      Except.ok ("Saving was not successful. Choose a valid filetype!", []) := by
  have hmem : filetype ∉ filetypes := by
    simp only [filetypes, List.contains_cons, List.contains_nil,
      Bool.or_eq_false_iff, beq_eq_false_iff_ne, ne_eq] at hft
    simp [filetypes]
    tauto
  unfold toFile
  rw [if_pos hhow]
  cases single <;>
    simp [hft, hmem, saveToFile_unsupported filetype hft]

theorem unsupported_filetype_no_writes_witness :
    toFile "C:\\data" "spectra" "csv" "reduced" true 3 =
      Except.ok ("Saving was not successful. Choose a valid filetype!", []) :=
  unsupported_filetype_no_writes "C:\\data" "spectra" "csv" "reduced" true 3
    (Or.inr rfl) (by rfl)

/-- One record of the dataframe built by `Creator.run`
(`dict_from_one_simulation`). -/
structure SpecRecord where
  label : List (String × ℚ)
  shift_x : ℚ
  scale_y : ℚ
  noise : ℚ
  fwhm : ℚ
  x : List ℚ
  y : List ℚ
deriving Inhabited

/-- Round half to even (the rounding of `np.round` and Python `round`). -/
def roundHalfEven (q : ℚ) : ℤ :=
  let f := ⌊q⌋
  let r := q - f
  if r < 1/2 then f
  else if 1/2 < r then f + 1
  else if Even f then f else f + 1

/-- Rounding to two decimals, `np.round(v, 2)`. -/
def round2 (q : ℚ) : ℚ := (roundHalfEven (100 * q) : ℚ) / 100

/-- The document built for one row in `Creator.upload_to_DB`:
`row.to_dict()` with `x` rounded to two decimals and `y` kept. -/
def docOfRow (r : SpecRecord) : SpecRecord :=
  { r with x := r.x.map round2 }

/-- The reduced projection `self.reduced_df = self.df[['x','y','label']]`. -/
structure ReducedRecord where
  x : List ℚ
  y : List ℚ
  label : List (String × ℚ)

def reducedView (df : List SpecRecord) : List ReducedRecord :=
  df.map (fun r => ⟨r.x, r.y, r.label⟩)

/-- The upload `Creator.upload_to_DB` after the interactive overwrite dialogue resolved
to `write`: the list of documents inserted into the collection.  The local
`df` is selected from the `reduced` flag exactly as in the source, but the
insert loop reads `self.df.iloc[i]` — the full dataframe — so the selection
is never consumed. -/
def uploadToDB (fullDf : List SpecRecord) (n : ℕ) (reduced write : Bool) :
    List SpecRecord :=
  let df : List ReducedRecord ⊕ List SpecRecord :=
    if reduced then Sum.inl (reducedView fullDf) else Sum.inr fullDf
  if write then (List.range n).map (fun i => docOfRow (fullDf.getD i default))
  else []

/-- C10: for every upload that proceeds to a write, the inserted documents
are independent of the `reduced` argument — both flag values insert exactly
the documents built from the full record table (all fields, with `x` rounded
for storage), because the insert loop reads the full dataframe rather than
the reduced selection. -/
theorem upload_reduced_independent (fullDf : List SpecRecord) (n : ℕ) :
    uploadToDB fullDf n true true = uploadToDB fullDf n false true ∧
    uploadToDB fullDf n true true =
      (List.range n).map (fun i => docOfRow (fullDf.getD i default)) := by
  exact ⟨rfl, rfl⟩

/-!
Embedding of `src/simulation/base_model/converters/text_parser.py`
(`TextParser._check_step_width` and `TextParser._interpolate`).
-/

/-- The minimum `np.min` of a list (numpy raises on an empty array; the model returns 0
there, a case excluded by the theorems' hypotheses). -/
def listMin : List ℚ → ℚ
  | [] => 0
  | a :: t => t.foldl min a

/-- The array `diff = np.abs(np.subtract(x, x1))` with `x1 = np.roll(x, -1)`: the
absolute differences of each sample with its cyclic successor — note the last
entry pairs `x[-1]` with `x[0]`. -/
def absDiffs (x : List ℚ) : List ℚ :=
  (x.zip (x.rotateLeft 1)).map (fun p => |p.1 - p.2|)

/-- The step `step = round(np.min(diff[diff != 0]), 2)` in
`TextParser._check_step_width`. -/
def stepOf (x : List ℚ) : ℚ :=
  round2 (listMin ((absDiffs x).filter (fun d => decide (d ≠ 0))))

/-- The loop body of `TextParser._interpolate` for one consecutive pair:
`diff = np.abs(np.around(x[i+1]-x[i], 2))`; when `diff > step` and
`diff < 10`, insert `int(np.round(diff/step))` grid points spaced by `step`
with `y` weights `k = j / int(diff/step)`; otherwise keep the original left
sample. -/
def gapPoints (step xi xi1 yi yi1 : ℚ) : List (ℚ × ℚ) :=
  let diff := |round2 (xi1 - xi)|
  if step < diff ∧ diff < 10 then
    (List.range (roundHalfEven (diff / step)).toNat).map (fun (j : ℕ) =>
      let k := (j : ℚ) / ((⌊diff / step⌋ : ℤ) : ℚ)
      (xi + (j : ℚ) * step, yi * (1 - k) + yi1 * k))
  else [(xi, yi)]

/-- The accumulating loop `for i in range(len(x) - 1)` of
`TextParser._interpolate`. -/
def interpLoop (step : ℚ) : List ℚ → List ℚ → List (ℚ × ℚ)
  | xi :: xi1 :: xs, yi :: yi1 :: ys =>
    gapPoints step xi xi1 yi yi1 ++ interpLoop step (xi1 :: xs) (yi1 :: ys)
  | _, _ => []

/-- The interpolation `TextParser._interpolate`: the loop over consecutive pairs followed by
the final `new_x += [x[-1]]; new_y += [y[-1]]`. -/
def interpolate (x y : List ℚ) (step : ℚ) : List ℚ × List ℚ :=
  let pts := interpLoop step x y ++
    [(x.getD (x.length - 1) 0, y.getD (y.length - 1) 0)]
  (pts.map Prod.fst, pts.map Prod.snd)

/-- The grid check `TextParser._check_step_width`: interpolate exactly when
`(stop - start) / step > len(x)`.  (With a zero rounded step numpy divides to
infinity and `_interpolate` then crashes on `int(inf)`; rational division by
zero returns 0 here, a case excluded by the theorems' hypotheses.) -/
def checkStepWidth (x y : List ℚ) : List ℚ × List ℚ :=
  let start := x.getD 0 0
  let stop := x.getD (x.length - 1) 0
  let step := stepOf x
  if (stop - start) / step > (x.length : ℚ) then interpolate x y step
  else (x, y)

/-- The canonical step as the specification words it: the minimum positive
consecutive difference of the x values (no rounding, no cyclic pair). -/
def minPosConsecDiff (x : List ℚ) : ℚ :=
  listMin (((x.zip x.tail).map (fun p => |p.1 - p.2|)).filter
    (fun d => decide (d ≠ 0)))

theorem abs_eval_neg (a : ℚ) (h : a ≤ 0) (b : ℚ) (hb : -a = b) : |a| = b := by
  rw [abs_of_nonpos h, hb]

theorem abs_eval_pos (a : ℚ) (h : 0 ≤ a) : |a| = a := abs_of_nonneg h

/-- C4 counterexample: on the parsed grid `x = [0, 0.025, 0.1]` the code's
canonical step is `round(0.025, 2) = 0.02` — the minimum positive consecutive
difference rounded half-to-even at two decimals — which differs from the
claimed unrounded minimum `0.025`. -/
theorem step_rounding_counterexample :
    stepOf [0, 1/40, 1/10] = 1/50 ∧
    minPosConsecDiff [0, 1/40, 1/10] = 1/40 ∧
    ¬ stepOf [0, 1/40, 1/10] = minPosConsecDiff [0, 1/40, 1/10] := by
  have e1 : |(0 : ℚ) - 1/40| = 1/40 := abs_eval_neg _ (by norm_num) _ (by norm_num)
  have e2 : |(1/40 : ℚ) - 1/10| = 3/40 := abs_eval_neg _ (by norm_num) _ (by norm_num)
  have e3 : |(1/10 : ℚ) - 0| = 1/10 := by
    rw [abs_eval_pos _ (by norm_num)]
    norm_num
  have hrot : ([0, 1/40, 1/10] : List ℚ).rotateLeft 1 = [1/40, 1/10, 0] := rfl
  have habs : absDiffs [0, 1/40, 1/10] = [1/40, 3/40, 1/10] := by
    simp only [absDiffs, hrot]
    show [|(0 : ℚ) - 1/40|, |(1/40 : ℚ) - 1/10|, |(1/10 : ℚ) - 0|] = [1/40, 3/40, 1/10]
    rw [e1, e2, e3]
  have hfilter : ([(1 : ℚ)/40, 3/40, 1/10].filter (fun d => decide (d ≠ 0))) =
      [1/40, 3/40, 1/10] := by
    simp
  have hmin : listMin [(1 : ℚ)/40, 3/40, 1/10] = 1/40 := by
    show min (min ((1 : ℚ)/40) (3/40)) (1/10) = 1/40
    rw [min_eq_left (by norm_num), min_eq_left (by norm_num)]
  have hfloor : ⌊(5/2 : ℚ)⌋ = 2 := by norm_num [Int.floor_eq_iff]
  have hrhe : roundHalfEven (5/2) = 2 := by
    unfold roundHalfEven
    rw [hfloor]
    norm_num
  have hstep : stepOf [0, 1/40, 1/10] = 1/50 := by
    unfold stepOf
    rw [habs, hfilter, hmin]
    unfold round2
    rw [show (100 : ℚ) * (1/40) = 5/2 by norm_num, hrhe]
    norm_num
  have hspec : minPosConsecDiff [0, 1/40, 1/10] = 1/40 := by
    unfold minPosConsecDiff
    show listMin (([|(0 : ℚ) - 1/40|, |(1/40 : ℚ) - 1/10|]).filter
      (fun d => decide (d ≠ 0))) = 1/40
    rw [e1, e2]
    have : ([(1 : ℚ)/40, 3/40].filter (fun d => decide (d ≠ 0))) = [1/40, 3/40] := by
      simp
    rw [this]
    show min ((1 : ℚ)/40) (3/40) = 1/40
    rw [min_eq_left (by norm_num)]
  refine ⟨hstep, hspec, ?_⟩
  rw [hstep, hspec]
  norm_num

theorem zip_tail_append (l : List ℚ) (z : ℚ) (hl : l ≠ []) :
    l.zip (l.tail ++ [z]) = (l.zip l.tail) ++ [((l.getLast?).getD 0, z)] := by
  induction l with
  | nil => exact absurd rfl hl
  | cons a t ih =>
    cases t with
    | nil => rfl
    | cons b t' =>
      have h := ih (by simp)
      simp only [List.tail_cons] at h
      simp only [List.tail_cons, List.zip_cons_cons, h, List.getLast?_cons_cons,
        List.cons_append]

theorem zip_tail_lt (x : List ℚ) (hs : x.Sorted (· < ·)) :
    ∀ p ∈ x.zip x.tail, p.1 < p.2 := by
  induction x with
  | nil => simp
  | cons a t ih =>
    cases t with
    | nil => simp
    | cons b t' =>
      intro p hp
      simp only [List.tail_cons, List.zip_cons_cons, List.mem_cons] at hp
      rcases hp with rfl | hp'
      · exact (List.sorted_cons.mp hs).1 b (by simp)
      · exact ih (List.sorted_cons.mp hs).2 p (by simpa using hp')

theorem head_le_getLastD (l : List ℚ) (h : l.Sorted (· < ·)) (hl : l ≠ []) :
    l.headD 0 ≤ (l.getLast?).getD 0 := by
  induction l with
  | nil => exact absurd rfl hl
  | cons a t ih =>
    cases t with
    | nil => simp
    | cons b t' =>
      have hab : a < b := (List.sorted_cons.mp h).1 b (by simp)
      have hb := ih (List.sorted_cons.mp h).2 (by simp)
      simp only [List.headD_cons] at hb
      simp only [List.headD_cons, List.getLast?_cons_cons]
      linarith

theorem consec_le_span (x : List ℚ) (hs : x.Sorted (· < ·)) :
    ∀ p ∈ x.zip x.tail, |p.1 - p.2| ≤ (x.getLast?).getD 0 - x.headD 0 := by
  induction x with
  | nil => simp
  | cons a t ih =>
    cases t with
    | nil => simp
    | cons b t' =>
      intro p hp
      have hab : a < b := (List.sorted_cons.mp hs).1 b (by simp)
      have hbl : (b :: t').headD 0 ≤ ((b :: t').getLast?).getD 0 :=
        head_le_getLastD _ (List.sorted_cons.mp hs).2 (by simp)
      simp only [List.headD_cons] at hbl
      simp only [List.tail_cons, List.zip_cons_cons, List.mem_cons] at hp
      rcases hp with rfl | hp'
      · rw [abs_of_nonpos (by linarith)]
        simp only [List.getLast?_cons_cons, List.headD_cons]
        have : b ≤ ((b :: t').getLast?).getD 0 := hbl
        simp only [neg_sub]
        linarith
      · have h' := ih (List.sorted_cons.mp hs).2 p (by simpa using hp')
        simp only [List.headD_cons] at h'
        simp only [List.getLast?_cons_cons, List.headD_cons]
        linarith

theorem foldl_min_mem (t : List ℚ) : ∀ a, t.foldl min a ∈ a :: t := by
  induction t with
  | nil => intro a; simp
  | cons b t' ih =>
    intro a
    have h := ih (min a b)
    simp only [List.foldl_cons]
    rcases List.mem_cons.mp h with h1 | h1
    · rcases min_choice a b with hm | hm <;> rw [h1, hm] <;> simp
    · simp [h1]

theorem listMin_mem (l : List ℚ) (hl : l ≠ []) : listMin l ∈ l := by
  cases l with
  | nil => exact absurd rfl hl
  | cons a t => exact foldl_min_mem t a

theorem listMin_append_single (l : List ℚ) (z : ℚ) (hl : l ≠ []) :
    listMin (l ++ [z]) = min (listMin l) z := by
  cases l with
  | nil => exact absurd rfl hl
  | cons a t =>
    show (t ++ [z]).foldl min a = min (t.foldl min a) z
    rw [List.foldl_append]
    rfl

theorem roundHalfEven_bounds (q : ℚ) :
    ⌊q⌋ ≤ roundHalfEven q ∧ roundHalfEven q ≤ ⌊q⌋ + 1 := by
  unfold roundHalfEven
  simp only []
  split_ifs <;> omega

/-- The code's canonical step is the spec's minimum positive consecutive
difference rounded at two decimals: in the cyclic `np.roll` difference array
the extra wrap-around entry `|x[-1] - x[0]|` is the whole span, which for a
strictly increasing grid never lowers the minimum. -/
theorem stepOf_eq_round_min (x : List ℚ) (hs : x.Sorted (· < ·))
    (h2 : 2 ≤ x.length) : stepOf x = round2 (minPosConsecDiff x) := by
  obtain ⟨a, t, rfl⟩ : ∃ a t, x = a :: t := by
    cases x with
    | nil => simp at h2
    | cons a t => exact ⟨a, t, rfl⟩
  have ht : t ≠ [] := by
    cases t with
    | nil => simp at h2
    | cons b t' => simp
  have htl : 1 ≤ t.length := List.length_pos.mpr ht
  have hrot : (a :: t).rotateLeft 1 = t ++ [a] := by
    have hc : ¬ ((a :: t).length ≤ 1) := by
      simp only [List.length_cons]
      omega
    have hmod : 1 % (a :: t).length = 1 := Nat.mod_eq_of_lt (by
      simp only [List.length_cons]
      omega)
    simp only [List.rotateLeft]
    rw [if_neg hc, hmod]
    simp
  have habs : absDiffs (a :: t) =
      ((a :: t).zip t).map (fun p => |p.1 - p.2|) ++
        [|(((a :: t).getLast?).getD 0) - a|] := by
    rw [absDiffs, hrot]
    have hz := zip_tail_append (a :: t) a (by simp)
    simp only [List.tail_cons] at hz
    rw [hz, List.map_append]
    rfl
  have hconsec_ne : ((a :: t).zip t).map (fun p => |p.1 - p.2|) ≠ [] := by
    cases t with
    | nil => exact absurd rfl ht
    | cons b t' => simp
  have hpos : ∀ d ∈ ((a :: t).zip t).map (fun p => |p.1 - p.2|), 0 < d := by
    intro d hd
    obtain ⟨p, hp, rfl⟩ := List.mem_map.mp hd
    have hlt := zip_tail_lt (a :: t) hs p (by simpa using hp)
    rw [abs_of_nonpos (by linarith)]
    simp only [neg_sub]
    linarith
  have hfilter_consec :
      (((a :: t).zip t).map (fun p => |p.1 - p.2|)).filter
        (fun d => decide (d ≠ 0)) =
      ((a :: t).zip t).map (fun p => |p.1 - p.2|) := by
    apply List.filter_eq_self.mpr
    intro d hd
    have := hpos d hd
    simp only [ne_eq, decide_eq_true_eq]
    intro h0
    rw [h0] at this
    exact lt_irrefl 0 this
  have hle_span : ∀ d ∈ ((a :: t).zip t).map (fun p => |p.1 - p.2|),
      d ≤ |(((a :: t).getLast?).getD 0) - a| := by
    intro d hd
    obtain ⟨p, hp, rfl⟩ := List.mem_map.mp hd
    have h1 := consec_le_span (a :: t) hs p (by simpa using hp)
    simp only [List.headD_cons] at h1
    have hnn : a ≤ ((a :: t).getLast?).getD 0 := by
      have := head_le_getLastD (a :: t) hs (by simp)
      simpa using this
    have hh : (0 : ℚ) ≤ ((a :: t).getLast?).getD 0 - a := by linarith
    rw [abs_of_nonneg hh]
    exact h1
  unfold stepOf minPosConsecDiff
  simp only [List.tail_cons]
  rw [habs, List.filter_append, hfilter_consec]
  by_cases hsz : |(((a :: t).getLast?).getD 0) - a| = 0
  · have h0 : List.filter (fun d => decide (d ≠ 0))
        [|(((a :: t).getLast?).getD 0) - a|] = [] := by simp [hsz]
    rw [h0, List.append_nil]
  · have h1 : List.filter (fun d => decide (d ≠ 0))
        [|(((a :: t).getLast?).getD 0) - a|] =
        [|(((a :: t).getLast?).getD 0) - a|] := by simp [hsz]
    rw [h1, listMin_append_single _ _ hconsec_ne,
      min_eq_left (hle_span _ (listMin_mem _ hconsec_ne))]

theorem gapPoints_keep (step xi xi1 yi yi1 : ℚ)
    (h : ¬ (step < |round2 (xi1 - xi)| ∧ |round2 (xi1 - xi)| < 10)) :
    gapPoints step xi xi1 yi yi1 = [(xi, yi)] := by
  unfold gapPoints
  simp only []
  rw [if_neg h]

theorem gapPoints_insert (step xi xi1 yi yi1 : ℚ) (hstep : 0 < step)
    (h1 : step < |round2 (xi1 - xi)|) (h10 : |round2 (xi1 - xi)| < 10) :
    (gapPoints step xi xi1 yi yi1).headD (0, 0) = (xi, yi) ∧
    1 ≤ roundHalfEven (|round2 (xi1 - xi)| / step) ∧
    ∀ p ∈ gapPoints step xi xi1 yi yi1, ∃ j : ℕ,
      (j : ℤ) < roundHalfEven (|round2 (xi1 - xi)| / step) ∧
      p.1 = xi + (j : ℚ) * step ∧
      ∃ k : ℚ, 0 ≤ k ∧ k ≤ 1 ∧
        k = (j : ℚ) / ((⌊|round2 (xi1 - xi)| / step⌋ : ℤ) : ℚ) ∧
        p.2 = yi + k * (yi1 - yi) := by
  have hq1 : 1 < |round2 (xi1 - xi)| / step := (one_lt_div hstep).mpr h1
  have hfl1 : 1 ≤ ⌊|round2 (xi1 - xi)| / step⌋ := by
    rw [Int.le_floor]
    exact_mod_cast hq1.le
  obtain ⟨hb1, hb2⟩ := roundHalfEven_bounds (|round2 (xi1 - xi)| / step)
  have hrhe1 : 1 ≤ roundHalfEven (|round2 (xi1 - xi)| / step) := le_trans hfl1 hb1
  have hflq : (1 : ℚ) ≤ ((⌊|round2 (xi1 - xi)| / step⌋ : ℤ) : ℚ) := by
    exact_mod_cast hfl1
  have hgap : gapPoints step xi xi1 yi yi1 =
      (List.range (roundHalfEven (|round2 (xi1 - xi)| / step)).toNat).map
        (fun (j : ℕ) =>
        (xi + (j : ℚ) * step,
          yi * (1 - (j : ℚ) / ((⌊|round2 (xi1 - xi)| / step⌋ : ℤ) : ℚ)) +
            yi1 * ((j : ℚ) / ((⌊|round2 (xi1 - xi)| / step⌋ : ℤ) : ℚ)))) := by
    unfold gapPoints
    simp only []
    rw [if_pos ⟨h1, h10⟩]
  refine ⟨?_, hrhe1, ?_⟩
  · rw [hgap]
    obtain ⟨m, hm⟩ : ∃ m, (roundHalfEven (|round2 (xi1 - xi)| / step)).toNat = m + 1 :=
      ⟨(roundHalfEven (|round2 (xi1 - xi)| / step)).toNat - 1, by omega⟩
    rw [hm, List.range_succ_eq_map]
    simp only [List.map_cons, List.headD_cons]
    norm_num
  · intro p hp
    rw [hgap] at hp
    obtain ⟨j, hj, rfl⟩ := List.mem_map.mp hp
    rw [List.mem_range] at hj
    have hjz : (j : ℤ) < roundHalfEven (|round2 (xi1 - xi)| / step) := by
      have h' : (j : ℤ) < ((roundHalfEven (|round2 (xi1 - xi)| / step)).toNat : ℤ) := by
        exact_mod_cast hj
      rwa [Int.toNat_of_nonneg (by omega)] at h'
    refine ⟨j, hjz, rfl,
      (j : ℚ) / ((⌊|round2 (xi1 - xi)| / step⌋ : ℤ) : ℚ), ?_, ?_, rfl, ?_⟩
    · exact div_nonneg (Nat.cast_nonneg j) (by linarith)
    · rw [div_le_one (by linarith)]
      have hjle : (j : ℤ) ≤ ⌊|round2 (xi1 - xi)| / step⌋ := by omega
      exact_mod_cast hjle
    · ring

theorem interpLoop_eq_flatMap (step : ℚ) :
    ∀ (x y : List ℚ), x.length = y.length →
    interpLoop step x y =
      ((x.zip x.tail).zip (y.zip y.tail)).flatMap
        (fun q => gapPoints step q.1.1 q.1.2 q.2.1 q.2.2) := by
  intro x
  induction x with
  | nil =>
    intro y h
    simp [interpLoop]
  | cons a t ih =>
    intro y h
    cases y with
    | nil => simp at h
    | cons c u =>
      cases t with
      | nil =>
        cases u with
        | nil => simp [interpLoop]
        | cons d u' => simp at h
      | cons b t' =>
        cases u with
        | nil => simp at h
        | cons d u' =>
          rw [interpLoop, ih (d :: u') (by simpa using h)]
          simp [List.zip_cons_cons]

/-- C4 (amended): grid regularization computes the canonical step as the
minimum positive consecutive x-difference rounded half-to-even at two
decimals (the cyclic wrap-around difference of the `np.roll` never lowers
the minimum on an increasing grid); interpolation is applied if and only if
the observed span divided by that step exceeds the sample count; the loop
processes exactly the consecutive sample pairs in order; a pair whose
two-decimal-rounded gap is at most the step or at least 10 x-units
contributes its left sample unchanged (a deliberate segment boundary); and a
pair whose rounded gap lies strictly between the step and 10 gets
`round(gap/step)` inserted points at canonical-step spacing whose y values
are linear interpolants `y_i + k (y_{i+1} - y_i)` with weights
`k = j / floor(gap/step)` in `[0, 1]`, starting at the left sample. -/
theorem grid_regularization (x y : List ℚ) (hs : x.Sorted (· < ·))
    (h2 : 2 ≤ x.length) :
    stepOf x = round2 (minPosConsecDiff x) ∧
    ((x.getD (x.length - 1) 0 - x.getD 0 0) / stepOf x > (x.length : ℚ) →
      checkStepWidth x y = interpolate x y (stepOf x)) ∧
    (¬ ((x.getD (x.length - 1) 0 - x.getD 0 0) / stepOf x > (x.length : ℚ)) →
      checkStepWidth x y = (x, y)) ∧
    (x.length = y.length → interpLoop (stepOf x) x y =
      ((x.zip x.tail).zip (y.zip y.tail)).flatMap
        (fun q => gapPoints (stepOf x) q.1.1 q.1.2 q.2.1 q.2.2)) ∧
    (∀ step xi xi1 yi yi1 : ℚ,
      ¬ (step < |round2 (xi1 - xi)| ∧ |round2 (xi1 - xi)| < 10) →
      gapPoints step xi xi1 yi yi1 = [(xi, yi)]) ∧
    (∀ step xi xi1 yi yi1 : ℚ, 0 < step → step < |round2 (xi1 - xi)| →
      |round2 (xi1 - xi)| < 10 →
      (gapPoints step xi xi1 yi yi1).headD (0, 0) = (xi, yi) ∧
      1 ≤ roundHalfEven (|round2 (xi1 - xi)| / step) ∧
      ∀ p ∈ gapPoints step xi xi1 yi yi1, ∃ j : ℕ,
        (j : ℤ) < roundHalfEven (|round2 (xi1 - xi)| / step) ∧
        p.1 = xi + (j : ℚ) * step ∧
        ∃ k : ℚ, 0 ≤ k ∧ k ≤ 1 ∧
          k = (j : ℚ) / ((⌊|round2 (xi1 - xi)| / step⌋ : ℤ) : ℚ) ∧
          p.2 = yi + k * (yi1 - yi)) := by
  refine ⟨stepOf_eq_round_min x hs h2, ?_, ?_,
    interpLoop_eq_flatMap (stepOf x) x y,
    gapPoints_keep, gapPoints_insert⟩
  · intro h
    unfold checkStepWidth
    simp only []
    rw [if_pos h]
  · intro h
    unfold checkStepWidth
    simp only []
    rw [if_neg h]

theorem stepOf_unit_grid : stepOf [0, 1, 2] = 1 := by
  have hrot : ([0, 1, 2] : List ℚ).rotateLeft 1 = [1, 2, 0] := rfl
  have e1 : |(0 : ℚ) - 1| = 1 := abs_eval_neg _ (by norm_num) _ (by norm_num)
  have e2 : |(1 : ℚ) - 2| = 1 := abs_eval_neg _ (by norm_num) _ (by norm_num)
  have e3 : |(2 : ℚ) - 0| = 2 := by
    rw [abs_eval_pos _ (by norm_num)]
    norm_num
  have habs : absDiffs [0, 1, 2] = [1, 1, 2] := by
    simp only [absDiffs, hrot]
    show [|(0 : ℚ) - 1|, |(1 : ℚ) - 2|, |(2 : ℚ) - 0|] = [1, 1, 2]
    rw [e1, e2, e3]
  have hfloor : ⌊(100 : ℚ)⌋ = 100 := by norm_num
  have hrhe : roundHalfEven 100 = 100 := by
    unfold roundHalfEven
    rw [hfloor]
    norm_num
  unfold stepOf
  rw [habs]
  have hfl : ([(1 : ℚ), 1, 2].filter (fun d => decide (d ≠ 0))) = [1, 1, 2] := by
    simp
  rw [hfl]
  have hmin : listMin [(1 : ℚ), 1, 2] = 1 := by
    show min (min (1 : ℚ) 1) 2 = 1
    rw [min_self, min_eq_left (by norm_num)]
  rw [hmin]
  unfold round2
  rw [show (100 : ℚ) * 1 = 100 by norm_num, hrhe]
  norm_num

theorem grid_regularization_witness :
    stepOf [0, 1, 2] = round2 (minPosConsecDiff [0, 1, 2]) ∧
    checkStepWidth [0, 1, 2] [5, 6, 7] = ([0, 1, 2], [5, 6, 7]) ∧
    gapPoints 1 0 (1/2) 5 6 = [(0, 5)] := by
  have hsort : ([0, 1, 2] : List ℚ).Sorted (· < ·) := by
    norm_num [List.sorted_cons]
  have hg := grid_regularization [0, 1, 2] [5, 6, 7] hsort (by norm_num)
  refine ⟨hg.1, ?_, ?_⟩
  · apply hg.2.2.1
    rw [stepOf_unit_grid]
    norm_num
  · apply hg.2.2.2.2.1
    have hr : round2 ((1 : ℚ)/2 - 0) = 1/2 := by
      have hfloor : ⌊(50 : ℚ)⌋ = 50 := by norm_num
      unfold round2
      rw [show (100 : ℚ) * (1/2 - 0) = 50 by norm_num]
      unfold roundHalfEven
      rw [hfloor]
      norm_num
    rw [hr]
    rw [abs_eval_pos _ (by norm_num)]
    norm_num

end XPS
